import Mathlib

/-!
Shallow embedding of the YTD downloader (`app/app.py`): the per-job pipeline
`job` / `process_entry`, the title-cleaning transform, the Shazam metadata
resolution, the tagging/rename step and the optional ffmpeg conversion.
Strings are modelled as `List Char` with Python-faithful primitives
(`str.replace` with empty replacement, `str.split(sep)[0]`, `str.strip`).
-/

abbrev Str := List Char

namespace YTD

/-- Python `str.isspace` characters relevant to `str.strip()` (ASCII range). -/
def pySpace (c : Char) : Bool :=
  c == ' ' || c == '\t' || c == '\n' || c == '\r' || c == '\x0b' || c == '\x0c'

/-- The separator set of `title.strip(" -_?!.,;:()[]{}'\x22\x5c")` in `process_entry`. -/
def sepChars : Str :=
  [' ', '-', '_', '?', '!', '.', ',', ';', ':', '(', ')', '[', ']', '\x7b', '\x7d', '\'', '"', '\\']

/-- Strip characters satisfying `p` from the right end (recursive form). -/
def stripRightAux (p : Char → Bool) : Str → Str
  | [] => []
  | c :: rest =>
    let r := stripRightAux p rest
    if r.isEmpty && p c then [] else c :: r

/-- Python `s.strip(chars)` / `s.strip()`: drop characters satisfying `p` from both ends. -/
def stripBoth (p : Char → Bool) (s : Str) : Str := stripRightAux p (s.dropWhile p)

/-- Python substring test `pat in s`. -/
def isInfixL (pat : Str) : Str → Bool
  | [] => pat.isEmpty
  | c :: rest => pat.isPrefixOf (c :: rest) || isInfixL pat rest

/-- Python `s.replace(p :: ps, "")`: delete all (leftmost, non-overlapping)
occurrences.  The fuel argument makes the recursion structural; every step
consumes at least one character, so fuel `s.length` always suffices and the
fuel-exhausted branch is unreachable. -/
def replaceAllPosF (p : Char) (ps : Str) : Nat → Str → Str
  | _, [] => []
  | 0, s => s
  | fuel + 1, c :: rest =>
    if (p :: ps).isPrefixOf (c :: rest) then replaceAllPosF p ps fuel (rest.drop ps.length)
    else c :: replaceAllPosF p ps fuel rest

/-- Python `s.replace(pat, "")` (for empty `pat`, Python returns `s` unchanged). -/
def replaceAll (pat s : Str) : Str :=
  match pat with
  | [] => s
  | p :: ps => replaceAllPosF p ps s.length s

/-- Python `s.split(sep)[0]`: the prefix of `s` before the first occurrence of `sep`. -/
def takeBeforeL (sep : Str) : Str → Str
  | [] => []
  | c :: rest => if sep.isPrefixOf (c :: rest) then [] else c :: takeBeforeL sep rest

/-- The title-cleaning transform of `process_entry` (applied to the already
slash-sanitized uploader and raw title):
remove the uploader if it occurs in the title, truncate at the first
occurrence of the left bracket character, truncate at the first occurrence of
the marker `(Official`, remove `(Visual)`, then strip the fixed separator set
from both ends. -/
def cleanTitle (uploader title0 : Str) : Str :=
  let t1 := if isInfixL uploader title0
    then stripBoth pySpace (replaceAll uploader title0) else title0
  let t2 := stripBoth pySpace (takeBeforeL (("[").toList) t1)
  let t3 := stripBoth pySpace (takeBeforeL (("(Official").toList) t2)
  let t4 := stripBoth pySpace (replaceAll (("(Visual)").toList) t3)
  stripBoth (fun c => sepChars.contains c) t4

/-- Python `s.replace("/", "_")`. -/
def slashu (s : Str) : Str := s.map (fun c => if c = '/' then '_' else c)

/-- Python `s.lower()` (ASCII). -/
def pyLower (s : Str) : Str := s.map Char.toLower

/-! ### Paths and the filesystem

`pathlib.Path` values are modelled as a parent directory plus a base name;
`with_suffix` and `stem` act on the base name by splitting at its last dot
(with pathlib's hidden-file rule: a leading dot is not a suffix separator). -/

/-- Scan the reversed base name up to the first dot: returns the reversed
extension (without the dot) and the reversed stem. -/
def splitExtRev : Str → Option (Str × Str)
  | [] => none
  | c :: rest =>
    if c = '.' then some ([], rest)
    else (splitExtRev rest).map (fun q => (c :: q.1, q.2))

/-- The pair `(stem, suffix)` of a pathlib base name: split at the last dot; a name with
no dot, or only a leading dot, has an empty suffix. -/
def splitExt (base : Str) : Str × Str :=
  match splitExtRev base.reverse with
  | some q => if q.2.isEmpty then (base, []) else (q.2.reverse, '.' :: q.1.reverse)
  | none => (base, [])

/-- Python `Path(...).stem`. -/
def stemOf (base : Str) : Str := (splitExt base).1

/-- Python `Path(...).with_suffix(suf)` on a base name (`suf` includes its dot). -/
def withSuffix (suf base : Str) : Str := (splitExt base).1 ++ suf

/-- A file path: parent directory and base name. -/
structure FPath where
  dir : Str
  base : Str
  deriving DecidableEq

/-- The transient recognition encoding `downloaded_path.with_suffix(".temp.mp3")`. -/
def tempPathOf (p : FPath) : FPath :=
  { dir := p.dir, base := withSuffix ((".temp.mp3").toList) p.base }

/-- The files currently on disk. -/
def FS := FPath → Bool

/-- A file appears on disk (ffmpeg output, rename target). -/
def fsInsert (p : FPath) (f : FS) : FS := fun q => if q = p then true else f q

/-- Python `Path.unlink` / rename source removal. -/
def fsErase (p : FPath) (f : FS) : FS := fun q => if q = p then false else f q

/-! ### Fetch entries and the Shazam result shape -/

/-- One item of a Shazam `sections[0]["metadata"]` list. -/
structure MetaItem where
  title : Str
  text : Str
  deriving DecidableEq

/-- One Shazam section; `metadata` is present only when the key exists. -/
structure ShSection where
  metadata : Option (List MetaItem)
  deriving DecidableEq

/-- A truthy Shazam `track` payload (images flattened to its two used keys). -/
structure Track where
  title : Option Str
  subtitle : Option Str
  coverart : Option Str
  background : Option Str
  genresPrimary : Option Str
  sections : List ShSection
  deriving DecidableEq

/-- A yt-dlp fetch entry: the metadata fields `process_entry` reads, plus the
path `ydl.prepare_filename(entry)` resolves to. -/
structure Entry where
  uploader : Option Str
  title : Option Str
  uploadDate : Str
  description : Str
  webpageUrl : Str
  path : FPath
  deriving DecidableEq

/-- Outcomes of the external effects of one entry's processing:
the ffmpeg transcode to the transient MP3, the Shazam call (`none` meaning the
call raised; `some none` a response with no truthy `track`), the cover-art
download, the final rename, and the optional output-format conversion. -/
structure EntryOracle where
  tempConvOk : Bool
  tempLeftover : Bool
  recogIfCalled : Option (Option Track)
  coverOk : Bool
  renameOk : Bool
  convOk : Bool
  convLeftover : Bool
  convErr : Str
  deriving DecidableEq

/-- The tag fields `process_entry` writes into the MP4 container. -/
structure Tags where
  nam : Str
  art : Str
  alb : Str
  day : Str
  gen : Str
  desc : Str
  ldes : Str
  covr : Bool
  deriving DecidableEq

/-- Observable events of one job: reported progress values, the fetch call,
the Shazam call, the tag save, and a conversion attempt. -/
inductive Ev where
  | progress (n : Nat)
  | fetch (url : Str)
  | recognize (tmp : FPath)
  | save (p : FPath)
  | convert (src dst : FPath)
  deriving DecidableEq

/-- The terminal outcome relayed by `finish_bar`. -/
inductive Outcome where
  | success (filename : Option Str)
  | failure (msg : Str)
  deriving DecidableEq

/-- Python `a or b` on optional strings (`None` and `""` are falsy). -/
def pyOrS (a b : Option Str) : Option Str :=
  match a with
  | some s => if s.isEmpty then b else some s
  | none => b

/-- Truthiness of an optional string. -/
def truthyS : Option Str → Bool
  | some s => !s.isEmpty
  | none => false

/-- One step of the `sections[0]["metadata"]` loop updating
`(album, year, genre)`. -/
def metaStep (acc : Str × Str × Str) (it : MetaItem) : Str × Str × Str :=
  let key := pyLower it.title
  if key = ("album").toList then (it.text, acc.2.1, acc.2.2)
  else if key = ("released").toList ∨ key = ("release date").toList ∨ key = ("year").toList then
    (acc.1, takeBeforeL (("-").toList) it.text, acc.2.2)
  else if key = ("genre").toList then (acc.1, acc.2.1, it.text)
  else acc

/-- The message of the exception raised when Shazam returns no track payload. -/
def shazamFailMsg : Str := ("Shazam recognition failed: No track info returned.").toList

/-- The naming step: slash-sanitize artist and title, balance an unmatched
opening parenthesis of the title, produce the base name of the renamed file. -/
def makeName (artist songTitle : Str) : Str :=
  let sa := slashu artist
  let st0 := slashu songTitle
  let st := if '(' ∈ st0 ∧ ')' ∉ st0 then st0 ++ [')'] else st0
  sa ++ (" - ").toList ++ st ++ ((".m4a").toList)

/-- Result of `process_entry`: the disk state, the events it emitted, its
return (`Except.error` models the raised exception; `Except.ok none` the
skip and rename-failure returns), and the tag record iff `audio.save()` ran. -/
structure PEOut where
  files : FS
  evs : List Ev
  ret : Except Str (Option FPath)
  tags : Option Tags

/-- Shallow embedding of `process_entry`.  Mirrors the source order: existence
check, metadata cleanup, progress 92, transient-MP3 recognition with its
`finally` cleanup, progress 96, the no-track exception, tag resolution,
`audio.save()`, and the rename with its non-fatal failure path. -/
def processEntry (fs : FS) (e : Entry) (o : EntryOracle) : PEOut :=
  if fs e.path then
    let uploader := slashu (e.uploader.getD (("Unknown").toList))
    let rawTitle := slashu (e.title.getD (("Unknown").toList))
    let cleaned := cleanTitle uploader rawTitle
    let temp := tempPathOf e.path
    let rec1 : FS × List Ev × Option (Option Track) :=
      if o.tempConvOk then
        (fsInsert temp fs, [Ev.recognize temp, Ev.progress 96], o.recogIfCalled)
      else
        ((if o.tempLeftover then fsInsert temp fs else fs), [Ev.progress 96], none)
    let fs2 := fsErase temp rec1.1
    let evs0 := Ev.progress 92 :: rec1.2.1
    match rec1.2.2.bind id with
    | none =>
      { files := fs2, evs := evs0, ret := Except.error shazamFailMsg, tags := none }
    | some t =>
      let artist := t.subtitle.getD uploader
      let songTitle := t.title.getD cleaned
      let coverUrl := pyOrS t.coverart t.background
      let year0 := e.uploadDate.take 4
      let genre0 := match t.genresPrimary with
        | some g => if g.isEmpty then [] else g
        | none => []
      let adg := match t.sections with
        | [] => (([] : Str), year0, genre0)
        | s0 :: _ =>
          match s0.metadata with
          | some items => items.foldl metaStep (([] : Str), year0, genre0)
          | none => (([] : Str), year0, genre0)
      let tg : Tags := { nam := songTitle, art := artist, alb := adg.1, day := adg.2.1,
                         gen := adg.2.2, desc := e.description, ldes := e.webpageUrl,
                         covr := truthyS coverUrl && o.coverOk }
      let newPath : FPath := { dir := e.path.dir, base := makeName artist songTitle }
      let evs1 := evs0 ++ [Ev.save e.path]
      if o.renameOk then
        { files := fsInsert newPath (fsErase e.path fs2), evs := evs1,
          ret := Except.ok (some newPath), tags := some tg }
      else
        { files := fs2, evs := evs1, ret := Except.ok none, tags := some tg }
  else
    { files := fs, evs := [], ret := Except.ok none, tags := none }

/-! ### The job pipeline -/

/-- One yt-dlp progress-hook callback dictionary. -/
inductive HookEv where
  | downloading (downloadedBytes : Option Nat) (totalBytes : Option Nat)
      (totalBytesEstimate : Option Nat)
  | finished
  | other
  deriving DecidableEq

/-- Python `a or b` on optional byte counts (`None` and `0` are falsy). -/
def pyOrN (a b : Option Nat) : Option Nat :=
  match a with
  | some n => if n = 0 then b else some n
  | none => b

/-- The progress values the `hook` closure reports for one callback:
`int(downloaded / total * 100)` while downloading (only when the merged total
is truthy), and `90` on the finished callback. -/
def hookEvents (h : HookEv) : List Ev :=
  match h with
  | HookEv.downloading d tb tbe =>
    match pyOrN tb tbe with
    | some t => if t = 0 then [] else [Ev.progress (d.getD 0 * 100 / t)]
    | none => []
  | HookEv.finished => [Ev.progress 90]
  | HookEv.other => []

/-- The shape of `extract_info`'s result: a single video, or a playlist whose
falsy entries are dropped.  Each entry carries its effect oracle. -/
inductive FetchInfo where
  | single (p : Entry × EntryOracle)
  | playlist (l : List (Option (Entry × EntryOracle)))

/-- One submitted job after URL validation: the URL, the two GUI settings, the
hook callbacks fired during the download, the `extract_info` outcome, and the
disk state when per-entry processing starts. -/
structure JobInput where
  url : Str
  allowPlaylist : Bool
  fmt : Str
  hooks : List HookEv
  fetch : Except Str FetchInfo
  fs0 : FS

/-- The post-tagging conversion block of `job` (run only when the selected
format differs from m4a): run ffmpeg to `result_path.with_suffix("." + fmt)`;
on success unlink the source and report the converted stem; on failure leave
the source and fail with the process error. -/
def convertStep (fmt : Str) (fs : FS) (rp : FPath) (o : EntryOracle) :
    FS × List Ev × Except Str Str :=
  let conv : FPath := { dir := rp.dir, base := withSuffix ('.' :: fmt) rp.base }
  if o.convOk then
    (fsErase rp (fsInsert conv fs), [Ev.convert rp conv], Except.ok (stemOf conv.base))
  else
    ((if o.convLeftover then fsInsert conv fs else fs), [Ev.convert rp conv],
      Except.error o.convErr)

/-- Result of the per-entry loop of `job`: disk state, events, the running
`final_filename`, and `some` terminal outcome when an entry's processing
failed (the early `return` paths). -/
structure REOut where
  files : FS
  evs : List Ev
  finalName : Option Str
  halt : Option Outcome

/-- The `for entry in entries` loop of `job`: report 90, run `process_entry`,
turn its exception into a Tagging-Error failure, convert when requested and
turn a conversion error into a Convert-Error failure, track `final_filename`. -/
def runEntries (fmt : Str) : FS → Option Str → List (Entry × EntryOracle) → REOut
  | fs, ff, [] => { files := fs, evs := [], finalName := ff, halt := none }
  | fs, ff, (e, o) :: rest =>
    let pe := processEntry fs e o
    let evs0 := Ev.progress 90 :: pe.evs
    match pe.ret with
    | Except.error msg =>
      { files := pe.files, evs := evs0 ++ [Ev.progress 100], finalName := ff,
        halt := some (Outcome.failure ((("Tagging Error: ").toList) ++ msg)) }
    | Except.ok none =>
      let r := runEntries fmt pe.files ff rest
      { files := r.files, evs := evs0 ++ r.evs, finalName := r.finalName, halt := r.halt }
    | Except.ok (some rp) =>
      if fmt = ("m4a").toList then
        let r := runEntries fmt pe.files (some (stemOf rp.base)) rest
        { files := r.files, evs := evs0 ++ r.evs, finalName := r.finalName, halt := r.halt }
      else
        let cs := convertStep fmt pe.files rp o
        match cs.2.2 with
        | Except.ok newStem =>
          let r := runEntries fmt cs.1 (some newStem) rest
          { files := r.files, evs := evs0 ++ cs.2.1 ++ r.evs, finalName := r.finalName,
            halt := r.halt }
        | Except.error m =>
          { files := cs.1, evs := evs0 ++ cs.2.1 ++ [Ev.progress 100], finalName := ff,
            halt := some (Outcome.failure ((("Convert Error: ").toList) ++ m)) }

/-- What one finished job produced: its event trace, its terminal outcome, and
the final disk state. -/
structure JobOut where
  trace : List Ev
  outcome : Outcome
  files : FS

/-- Shallow embedding of `job`: progress 5, playlist stripping, progress 10,
`extract_info` with its hook events, Download-Error handling, the entry loop,
and the final progress 100 plus success event (`finish_bar` reports 100 again
on every terminal path). -/
def runJob (inp : JobInput) : JobOut :=
  let urlLocal := if inp.allowPlaylist then inp.url
    else takeBeforeL (("&list=").toList) inp.url
  let pre := [Ev.progress 5, Ev.progress 10, Ev.fetch urlLocal] ++
    (inp.hooks.map hookEvents).flatten
  match inp.fetch with
  | Except.error msg =>
    { trace := pre ++ [Ev.progress 100],
      outcome := Outcome.failure ((("Download Error: ").toList) ++ msg),
      files := inp.fs0 }
  | Except.ok info =>
    let entries := match info with
      | FetchInfo.single p => [p]
      | FetchInfo.playlist l => l.filterMap id
    let r := runEntries inp.fmt inp.fs0 none entries
    match r.halt with
    | some oc => { trace := pre ++ r.evs, outcome := oc, files := r.files }
    | none =>
      { trace := pre ++ r.evs ++ [Ev.progress 100, Ev.progress 100],
        outcome := Outcome.success r.finalName, files := r.files }

/-! ### Trace observations -/

/-- The reported progress percentages, in order. -/
def progressValues (l : List Ev) : List Nat :=
  l.filterMap (fun ev => match ev with | Ev.progress n => some n | _ => none)

/-- The fetch calls of a trace. -/
def evFetches (l : List Ev) : List Ev :=
  l.filter (fun ev => match ev with | Ev.fetch _ => true | _ => false)

/-- The tag-save events of a trace. -/
def evSaves (l : List Ev) : List Ev :=
  l.filter (fun ev => match ev with | Ev.save _ => true | _ => false)

/-- The conversion attempts of a trace. -/
def evConverts (l : List Ev) : List Ev :=
  l.filter (fun ev => match ev with | Ev.convert _ _ => true | _ => false)

/-- The recognition calls of a trace. -/
def evRecogs (l : List Ev) : List Ev :=
  l.filter (fun ev => match ev with | Ev.recognize _ => true | _ => false)

/-- A list of naturals is non-decreasing. -/
def nondecr : List Nat → Bool
  | [] => true
  | [_] => true
  | a :: b :: rest => decide (a ≤ b) && nondecr (b :: rest)

/-! ### Concrete fixtures used by witnesses and counterexamples -/

/-- The download path of the sample entry (`<root>/<id>.m4a`). -/
def samplePath : FPath := { dir := ("./ytd_download").toList, base := ("vid1.m4a").toList }

/-- A recognized track with title `Song` and subtitle `Artist`. -/
def sampleTrack : Track :=
  { title := some (("Song").toList), subtitle := some (("Artist").toList),
    coverart := none, background := none, genresPrimary := none, sections := [] }

/-- A fetch entry titled `Artist - Song [Official Video]` by uploader `Artist`. -/
def sampleEntry : Entry :=
  { uploader := some (("Artist").toList),
    title := some (("Artist - Song [Official Video]").toList),
    uploadDate := ("20240102").toList, description := ("d").toList,
    webpageUrl := ("https://x.test/w").toList, path := samplePath }

/-- All external effects succeed and recognition returns `sampleTrack`. -/
def okOracle : EntryOracle :=
  { tempConvOk := true, tempLeftover := false, recogIfCalled := some (some sampleTrack),
    coverOk := true, renameOk := true, convOk := true, convLeftover := false,
    convErr := ("boom").toList }

/-- A disk that holds exactly one file. -/
def fsOnly (p : FPath) : FS := fun q => q == p

/-- A job submission around the sample entry. -/
def sampleJob (o : EntryOracle) (fs : FS) : JobInput :=
  { url := ("https://x.test/watch?v=abc").toList, allowPlaylist := false,
    fmt := ("m4a").toList, hooks := [HookEv.downloading (some 0) (some 1000) none],
    fetch := Except.ok (FetchInfo.single (sampleEntry, o)), fs0 := fs }

/-! ### Helper lemmas -/

theorem dropWhile_self_idem (p : Char → Bool) (l : Str) :
    List.dropWhile p (List.dropWhile p l) = List.dropWhile p l := by
  induction l with
  | nil => rfl
  | cons c rest ih =>
    by_cases h : p c
    · simp [List.dropWhile_cons, h, ih]
    · simp [List.dropWhile_cons, h]

theorem stripRightAux_idem (p : Char → Bool) (l : Str) :
    stripRightAux p (stripRightAux p l) = stripRightAux p l := by
  induction l with
  | nil => rfl
  | cons c rest ih =>
    rw [stripRightAux]
    by_cases h : (stripRightAux p rest).isEmpty && p c
    · simp only [h, if_pos]
      rfl
    · simp only [h, if_neg, Bool.not_eq_true]
      rw [stripRightAux, ih]
      simp only [h, if_neg, Bool.not_eq_true]

theorem length_dropWhile_le_len (p : Char → Bool) (l : Str) :
    (List.dropWhile p l).length ≤ l.length := by
  induction l with
  | nil => simp
  | cons c rest ih =>
    rw [List.dropWhile_cons]
    by_cases h : p c
    · simp only [h, if_pos]
      exact Nat.le_succ_of_le ih
    · simp [h]

theorem dropWhile_stripRightAux (p : Char → Bool) (t : Str)
    (h : List.dropWhile p t = t) :
    List.dropWhile p (stripRightAux p t) = stripRightAux p t := by
  cases t with
  | nil => rfl
  | cons c rest =>
    have hc : p c = false := by
      by_contra hc'
      have hc'' : p c = true := by
        cases hpc : p c
        · exact absurd hpc hc'
        · rfl
      rw [List.dropWhile_cons, if_pos hc''] at h
      have hlen := congrArg List.length h
      have hle := length_dropWhile_le_len p rest
      simp only [List.length_cons] at hlen
      omega
    rw [stripRightAux]
    simp only [hc, Bool.and_false, if_neg, Bool.false_eq_true, not_false_eq_true]
    rw [List.dropWhile_cons, hc]
    simp

theorem stripBoth_idem (p : Char → Bool) (s : Str) :
    stripBoth p (stripBoth p s) = stripBoth p s := by
  rw [stripBoth, stripBoth]
  rw [dropWhile_stripRightAux p _ (dropWhile_self_idem p s)]
  exact stripRightAux_idem p _

theorem takeBeforeL_eq_self (sep s : Str) (h : isInfixL sep s = false) :
    takeBeforeL sep s = s := by
  induction s with
  | nil => rfl
  | cons c rest ih =>
    rw [isInfixL] at h
    simp only [Bool.or_eq_false_iff] at h
    rw [takeBeforeL, if_neg (by simp [h.1])]
    exact congrArg (c :: ·) (ih h.2)

theorem replaceAllPosF_eq_self (p : Char) (ps : Str) (fuel : Nat) (s : Str)
    (h : isInfixL (p :: ps) s = false) :
    replaceAllPosF p ps fuel s = s := by
  induction fuel generalizing s with
  | zero => cases s <;> rfl
  | succ n ih =>
    cases s with
    | nil => rfl
    | cons c rest =>
      rw [isInfixL] at h
      simp only [Bool.or_eq_false_iff] at h
      rw [replaceAllPosF, if_neg (by simp [h.1])]
      exact congrArg (c :: ·) (ih rest h.2)

theorem replaceAll_eq_self (pat s : Str) (h : isInfixL pat s = false) :
    replaceAll pat s = s := by
  cases pat with
  | nil => rfl
  | cons p ps => exact replaceAllPosF_eq_self p ps s.length s h

theorem stripBoth_cleanTitle (u t : Str) :
    stripBoth (fun c => sepChars.contains c) (cleanTitle u t) = cleanTitle u t := by
  simp only [cleanTitle]
  exact stripBoth_idem _ _

/-! ### C3: idempotence of the title-cleaning transform -/

/-- C3 counterexample: the title-cleaning transform is not idempotent.  With
uploader `ab` and title `aabb`, removing the uploader re-creates an occurrence
of it (`aabb` becomes `ab`), so a second application erases the result. -/
theorem c3_clean_not_idempotent :
    cleanTitle (("ab").toList) (cleanTitle (("ab").toList) (("aabb").toList))
      ≠ cleanTitle (("ab").toList) (("aabb").toList) := by decide

/-- C3 (amended): the title-cleaning transform is idempotent on every input
whose once-cleaned result contains neither the uploader, a left bracket, the
marker `(Official`, nor `(Visual)`, and carries no leading or trailing
whitespace. -/
theorem c3_clean_idempotent_cond (u t : Str)
    (h1 : isInfixL u (cleanTitle u t) = false)
    (h2 : isInfixL (("[").toList) (cleanTitle u t) = false)
    (h3 : isInfixL (("(Official").toList) (cleanTitle u t) = false)
    (h4 : isInfixL (("(Visual)").toList) (cleanTitle u t) = false)
    (h5 : stripBoth pySpace (cleanTitle u t) = cleanTitle u t) :
    cleanTitle u (cleanTitle u t) = cleanTitle u t := by
  have h6 := stripBoth_cleanTitle u t
  generalize hs : cleanTitle u t = s at h1 h2 h3 h4 h5 h6 ⊢
  simp only [cleanTitle, h1, Bool.false_eq_true, if_false,
    takeBeforeL_eq_self _ _ h2, takeBeforeL_eq_self _ _ h3,
    replaceAll_eq_self _ _ h4, h5, h6]

/-- C3 witness: a concrete input satisfying the side conditions of the amended
idempotence statement. -/
theorem c3_clean_idempotent_cond_witness :
    isInfixL (("Q").toList) (cleanTitle (("Q").toList) (("Hello World").toList)) = false ∧
    cleanTitle (("Q").toList) (cleanTitle (("Q").toList) (("Hello World").toList))
      = cleanTitle (("Q").toList) (("Hello World").toList) :=
  ⟨by decide,
    c3_clean_idempotent_cond (("Q").toList) (("Hello World").toList)
      (by decide) (by decide) (by decide) (by decide) (by decide)⟩

/-! ### Event-kind lemmas -/

/-- Event kinds `process_entry` can emit: progress, the recognition call, the
tag save. -/
def peEv (ev : Ev) : Bool :=
  match ev with
  | Ev.progress _ => true
  | Ev.recognize _ => true
  | Ev.save _ => true
  | _ => false

theorem processEntry_evs_kind (fs : FS) (e : Entry) (o : EntryOracle) :
    ∀ ev ∈ (processEntry fs e o).evs, peEv ev = true := by
  simp only [processEntry]
  repeat' split
  all_goals
    simp [peEv, List.forall_mem_cons, List.forall_mem_append]

/-- The entry skipped when its downloaded file is missing: `process_entry`
returns immediately with no effect. -/
theorem processEntry_skip (fs : FS) (e : Entry) (o : EntryOracle)
    (h : fs e.path = false) :
    processEntry fs e o
      = { files := fs, evs := [], ret := Except.ok none, tags := none } := by
  rw [processEntry, if_neg (by simp [h])]

theorem filter_hook_nil (p : Ev → Bool) (hp : ∀ n, p (Ev.progress n) = false)
    (hs : List HookEv) : List.filter p ((hs.map hookEvents).flatten) = [] := by
  induction hs with
  | nil => rfl
  | cons h rest ih =>
    rw [List.map_cons, List.flatten_cons, List.filter_append, ih, List.append_nil]
    cases h with
    | downloading d tb tbe =>
      rw [hookEvents]
      cases pyOrN tb tbe with
      | none => rfl
      | some t =>
        by_cases ht : t = 0 <;> simp [ht, List.filter, hp]
    | finished => simp [hookEvents, List.filter, hp]
    | other => rfl

theorem evFetches_processEntry (fs : FS) (e : Entry) (o : EntryOracle) :
    evFetches (processEntry fs e o).evs = [] := by
  rw [evFetches, List.filter_eq_nil_iff]
  intro ev hm
  have hk := processEntry_evs_kind fs e o ev hm
  cases ev <;> simp_all [peEv]

theorem evConverts_processEntry (fs : FS) (e : Entry) (o : EntryOracle) :
    evConverts (processEntry fs e o).evs = [] := by
  rw [evConverts, List.filter_eq_nil_iff]
  intro ev hm
  have hk := processEntry_evs_kind fs e o ev hm
  cases ev <;> simp_all [peEv]

/-- The events of the conversion block: exactly one conversion attempt. -/
theorem convertStep_evs (fmt : Str) (fs : FS) (rp : FPath) (o : EntryOracle) :
    (convertStep fmt fs rp o).2.1
      = [Ev.convert rp { dir := rp.dir, base := withSuffix ('.' :: fmt) rp.base }] := by
  rw [convertStep]
  split <;> rfl

/-- Event kinds the entry loop can emit: everything except a fetch call. -/
def reEv (ev : Ev) : Bool :=
  match ev with
  | Ev.fetch _ => false
  | _ => true

theorem runEntries_evs_kind (fmt : Str) (fs : FS) (ff : Option Str)
    (l : List (Entry × EntryOracle)) :
    ∀ ev ∈ (runEntries fmt fs ff l).evs, reEv ev = true := by
  induction l generalizing fs ff with
  | nil =>
    intro ev hm
    simp [runEntries] at hm
  | cons p rest ih =>
    obtain ⟨e, o⟩ := p
    have hpe : ∀ ev ∈ (processEntry fs e o).evs, reEv ev = true := by
      intro ev h
      have := processEntry_evs_kind fs e o ev h
      cases ev <;> simp_all [peEv, reEv]
    simp only [runEntries]
    split
    · simp only [List.cons_append, List.forall_mem_cons, List.forall_mem_append,
        List.not_mem_nil, false_implies, implies_true, and_true]
      exact ⟨rfl, hpe, rfl⟩
    · simp only [List.cons_append, List.forall_mem_cons, List.forall_mem_append,
        List.not_mem_nil, false_implies, implies_true, and_true]
      exact ⟨rfl, hpe, ih _ _⟩
    · split
      · simp only [List.cons_append, List.forall_mem_cons, List.forall_mem_append,
          List.not_mem_nil, false_implies, implies_true, and_true]
        exact ⟨rfl, hpe, ih _ _⟩
      · rw [convertStep_evs]
        split
        · simp only [List.cons_append, List.forall_mem_cons, List.forall_mem_append,
            List.not_mem_nil, false_implies, implies_true, and_true]
          exact ⟨rfl, ⟨hpe, rfl⟩, ih _ _⟩
        · simp only [List.cons_append, List.forall_mem_cons, List.forall_mem_append,
            List.not_mem_nil, false_implies, implies_true, and_true]
          exact ⟨rfl, ⟨hpe, rfl⟩, rfl⟩

theorem evFetches_runEntries (fmt : Str) (fs : FS) (ff : Option Str)
    (l : List (Entry × EntryOracle)) :
    evFetches (runEntries fmt fs ff l).evs = [] := by
  rw [evFetches, List.filter_eq_nil_iff]
  intro ev hm
  have := runEntries_evs_kind fmt fs ff l ev hm
  cases ev <;> simp_all [reEv]

theorem evFetches_hooks (hs : List HookEv) :
    evFetches ((hs.map hookEvents).flatten) = [] :=
  filter_hook_nil _ (fun _ => rfl) hs

theorem evRecogs_hooks (hs : List HookEv) :
    evRecogs ((hs.map hookEvents).flatten) = [] :=
  filter_hook_nil _ (fun _ => rfl) hs

theorem evSaves_hooks (hs : List HookEv) :
    evSaves ((hs.map hookEvents).flatten) = [] :=
  filter_hook_nil _ (fun _ => rfl) hs

theorem evConverts_hooks (hs : List HookEv) :
    evConverts ((hs.map hookEvents).flatten) = [] :=
  filter_hook_nil _ (fun _ => rfl) hs

theorem evFetches_append (a b : List Ev) :
    evFetches (a ++ b) = evFetches a ++ evFetches b := List.filter_append _ _

theorem evRecogs_append (a b : List Ev) :
    evRecogs (a ++ b) = evRecogs a ++ evRecogs b := List.filter_append _ _

theorem evSaves_append (a b : List Ev) :
    evSaves (a ++ b) = evSaves a ++ evSaves b := List.filter_append _ _

theorem evConverts_append (a b : List Ev) :
    evConverts (a ++ b) = evConverts a ++ evConverts b := List.filter_append _ _

theorem evFetches_nil : evFetches [] = [] := rfl

theorem evRecogs_nil : evRecogs [] = [] := rfl

theorem evSaves_nil : evSaves [] = [] := rfl

theorem evConverts_nil : evConverts [] = [] := rfl

theorem evFetches_cons_progress (n : Nat) (l : List Ev) :
    evFetches (Ev.progress n :: l) = evFetches l := rfl

theorem evFetches_cons_fetch (u : Str) (l : List Ev) :
    evFetches (Ev.fetch u :: l) = Ev.fetch u :: evFetches l := rfl

theorem evRecogs_cons_progress (n : Nat) (l : List Ev) :
    evRecogs (Ev.progress n :: l) = evRecogs l := rfl

theorem evRecogs_cons_fetch (u : Str) (l : List Ev) :
    evRecogs (Ev.fetch u :: l) = evRecogs l := rfl

theorem evSaves_cons_progress (n : Nat) (l : List Ev) :
    evSaves (Ev.progress n :: l) = evSaves l := rfl

theorem evSaves_cons_fetch (u : Str) (l : List Ev) :
    evSaves (Ev.fetch u :: l) = evSaves l := rfl

theorem evConverts_cons_progress (n : Nat) (l : List Ev) :
    evConverts (Ev.progress n :: l) = evConverts l := rfl

theorem evConverts_cons_fetch (u : Str) (l : List Ev) :
    evConverts (Ev.fetch u :: l) = evConverts l := rfl

theorem evSaves_cons_recognize (p : FPath) (l : List Ev) :
    evSaves (Ev.recognize p :: l) = evSaves l := rfl

/-! ### C8: the namer -/

theorem slash_not_mem_slashu (s : Str) : '/' ∉ slashu s := by
  intro h
  obtain ⟨c, _, heq⟩ := List.mem_map.mp h
  by_cases h' : c = '/'
  · rw [if_pos h'] at heq
    exact absurd heq (by decide)
  · rw [if_neg h'] at heq
    exact h' heq

theorem slash_not_mem_makeName (a t : Str) : '/' ∉ makeName a t := by
  intro hm
  simp only [makeName, List.mem_append] at hm
  rcases hm with ((h | h) | h) | h
  · exact slash_not_mem_slashu a h
  · exact absurd h (by decide)
  · split at h
    · rw [List.mem_append] at h
      rcases h with h | h
      · exact slash_not_mem_slashu t h
      · exact absurd h (by decide)
    · exact slash_not_mem_slashu t h
  · exact absurd h (by decide)

/-- C8: the namer replaces every slash of the artist and title by an
underscore, appends a closing parenthesis when the slashed title has an
opening parenthesis but no closing one, and produces
`{artist} - {title}.m4a`; the resulting name never contains a slash. -/
theorem c8_namer (a t : Str) (h1 : '(' ∈ slashu t) (h2 : ')' ∉ slashu t) :
    makeName a t
      = slashu a ++ (" - ").toList ++ slashu t ++ [')'] ++ ((".m4a").toList) ∧
    '/' ∉ makeName a t := by
  constructor
  · simp only [makeName]
    rw [if_pos (And.intro h1 h2)]
    simp [List.append_assoc]
  · exact slash_not_mem_makeName a t

/-- C8 witness: artist `A/B` and title `Song (Live` produce the base name
`A_B - Song (Live).m4a` (whose stem is `A_B - Song (Live)`). -/
theorem c8_namer_witness :
    ('(' ∈ slashu (("Song (Live").toList)) ∧
    makeName (("A/B").toList) (("Song (Live").toList)
      = ("A_B - Song (Live).m4a").toList ∧
    '/' ∉ makeName (("A/B").toList) (("Song (Live").toList) :=
  ⟨by decide,
    ((c8_namer (("A/B").toList) (("Song (Live").toList) (by decide) (by decide)).1).trans
      (by decide),
    (c8_namer (("A/B").toList) (("Song (Live").toList) (by decide) (by decide)).2⟩

/-! ### C9: playlist stripping before fetch -/

/-- C9: when playlists are not allowed, the single fetch call of a job
receives the prefix of the submitted URL before the first `&list=`; on
`https://x.test/watch?v=abc&list=XYZ` that prefix is
`https://x.test/watch?v=abc`. -/
theorem c9_url_strip (inp : JobInput) (h : inp.allowPlaylist = false) :
    evFetches (runJob inp).trace
      = [Ev.fetch (takeBeforeL (("&list=").toList) inp.url)] ∧
    takeBeforeL (("&list=").toList) (("https://x.test/watch?v=abc&list=XYZ").toList)
      = ("https://x.test/watch?v=abc").toList := by
  refine ⟨?_, by decide⟩
  simp only [runJob, h, Bool.false_eq_true, if_false]
  split
  · simp only [List.cons_append, List.nil_append, List.append_assoc, List.append_nil,
      evFetches_append, evFetches_cons_progress, evFetches_cons_fetch, evFetches_nil,
      evFetches_hooks, evFetches_runEntries]
  · split <;>
      simp only [List.cons_append, List.nil_append, List.append_assoc, List.append_nil,
        evFetches_append, evFetches_cons_progress, evFetches_cons_fetch, evFetches_nil,
        evFetches_hooks, evFetches_runEntries]

/-- C9 witness: the statement instantiated at a concrete job input. -/
theorem c9_url_strip_witness :
    evFetches (runJob (sampleJob okOracle (fsOnly samplePath))).trace
      = [Ev.fetch (takeBeforeL (("&list=").toList)
          (sampleJob okOracle (fsOnly samplePath)).url)] :=
  (c9_url_strip (sampleJob okOracle (fsOnly samplePath)) rfl).1

/-! ### C10: missing downloaded file -/

/-- C10: when the downloaded file of a reported entry is absent at the start
of per-entry processing, the entry is skipped silently (no recognition call,
no tag save, no conversion attempt, disk untouched) and the job still
terminates successfully carrying no filename. -/
theorem c10_missing_file_skip (inp : JobInput) (e : Entry) (o : EntryOracle)
    (hf : inp.fetch = Except.ok (FetchInfo.single (e, o)))
    (hx : inp.fs0 e.path = false) :
    (runJob inp).outcome = Outcome.success none ∧
    (runJob inp).files = inp.fs0 ∧
    evRecogs (runJob inp).trace = [] ∧
    evSaves (runJob inp).trace = [] ∧
    evConverts (runJob inp).trace = [] := by
  have hpe := processEntry_skip inp.fs0 e o hx
  refine ⟨?_, ?_, ?_, ?_, ?_⟩ <;>
    simp only [runJob, hf, runEntries, hpe, List.cons_append, List.nil_append,
      List.append_assoc, List.append_nil,
      evRecogs_append, evRecogs_cons_progress, evRecogs_cons_fetch, evRecogs_nil,
      evRecogs_hooks, evSaves_append, evSaves_cons_progress, evSaves_cons_fetch,
      evSaves_nil, evSaves_hooks, evConverts_append, evConverts_cons_progress,
      evConverts_cons_fetch, evConverts_nil, evConverts_hooks]

/-! ### Path lemmas -/

theorem splitExtRev_no_dot (u v : Str) (hu : '.' ∉ u) :
    splitExtRev (u ++ '.' :: v) = some (u, v) := by
  induction u with
  | nil => simp [splitExtRev]
  | cons c cs ih =>
    have hc : c ≠ '.' := fun hc => hu (hc ▸ List.mem_cons_self c cs)
    have hcs : '.' ∉ cs := fun h => hu (List.mem_cons_of_mem c h)
    rw [List.cons_append, splitExtRev, if_neg hc, ih hcs]
    rfl

theorem splitExt_append_ext (z w : Str) (hz : z ≠ []) (hw : '.' ∉ w) :
    splitExt (z ++ '.' :: w) = (z, '.' :: w) := by
  rw [splitExt, List.reverse_append,
    show ('.' :: w).reverse = w.reverse ++ ['.'] from by simp, List.append_assoc,
    List.singleton_append,
    splitExtRev_no_dot w.reverse z.reverse (by simpa using hw)]
  have hne : z.reverse.isEmpty = false := by
    cases hzr : z.reverse with
    | nil => exact absurd (by simpa using hzr) hz
    | cons a l => rfl
  simp [hne]

theorem getLast?_append_right (l m : List Char) (c : Char) (h : m.getLast? = some c) :
    (l ++ m).getLast? = some c := by
  rw [List.getLast?_append_of_ne_nil l (fun hm => by rw [hm] at h; exact Option.noConfusion h)]
  exact h

theorem makeName_last (a t : Str) : (makeName a t).getLast? = some 'a' := by
  simp only [makeName]
  repeat' apply getLast?_append_right
  decide

/-- A renamed output path (base built by `makeName`) is never the transient
recognition encoding: their base names end in different characters. -/
theorem newPath_ne_tempPath (d a s : Str) (p : FPath) :
    ({ dir := d, base := makeName a s } : FPath) ≠ tempPathOf p := by
  intro hEq
  have hb := congrArg FPath.base hEq
  simp only [tempPathOf] at hb
  have h1 := makeName_last a s
  rw [hb] at h1
  have h2 : (withSuffix ((".temp.mp3").toList) p.base).getLast? = some '3' := by
    rw [withSuffix]
    exact getLast?_append_right _ _ _ (by decide)
  rw [h2] at h1
  exact absurd h1 (by decide)

/-- The transient encoding differs from the downloaded file when the latter
has the m4a extension. -/
theorem tempPath_ne_self (p : FPath) (z : Str)
    (hb : p.base = z ++ '.' :: (("m4a").toList)) (hz : z ≠ []) :
    tempPathOf p ≠ p := by
  intro hEq
  have hbase := congrArg FPath.base hEq
  simp only [tempPathOf, withSuffix] at hbase
  rw [hb, splitExt_append_ext z _ hz (by decide)] at hbase
  have := List.append_cancel_left hbase
  exact absurd this (by decide)

/-! ### C4: transient recognition encoding cleanup -/

/-- C4: the transient recognition MP3 never survives `process_entry`: when it
is not on disk before the entry is processed, it is not on disk after, on
every execution path (skip, recognition success, no-track failure, transcode
or recognition exception, rename success or failure). -/
theorem c4_temp_cleanup (fs : FS) (e : Entry) (o : EntryOracle)
    (h : fs (tempPathOf e.path) = false) :
    (processEntry fs e o).files (tempPathOf e.path) = false := by
  by_cases hx : fs e.path = true
  · simp only [processEntry, hx, if_true]
    split
    · simp [fsErase]
    · split
      · simp only [fsInsert, fsErase]
        split
        · rename_i hq
          exact absurd hq (Ne.symm (newPath_ne_tempPath _ _ _ _))
        · split
          · rfl
          · simp [fsErase]
      · simp [fsErase]
  · rw [processEntry_skip fs e o (by simpa using hx)]
    exact h

/-- C4 witness: a concrete entry processed over a disk holding only the
downloaded file leaves no transient encoding behind. -/
theorem c4_temp_cleanup_witness :
    fsOnly samplePath (tempPathOf sampleEntry.path) = false ∧
    (processEntry (fsOnly samplePath) sampleEntry okOracle).files
      (tempPathOf sampleEntry.path) = false :=
  ⟨by decide, c4_temp_cleanup (fsOnly samplePath) sampleEntry okOracle (by decide)⟩

/-! ### C5: rename failure -/

/-- C5 counterexample: when the final rename fails, the job still succeeds but
its terminal success event carries no filename at all — in particular not the
pre-rename path `vid1.m4a` (stem `vid1`) that the claim promises. -/
theorem c5_rename_fail_cex :
    (runJob (sampleJob { okOracle with renameOk := false } (fsOnly samplePath))).outcome
      = Outcome.success none ∧
    (runJob (sampleJob { okOracle with renameOk := false } (fsOnly samplePath))).outcome
      ≠ Outcome.success (some (("vid1").toList)) ∧
    (runJob (sampleJob { okOracle with renameOk := false } (fsOnly samplePath))).outcome
      ≠ Outcome.success (some (("vid1.m4a").toList)) := by
  decide

/-- C5 (amended): an OS-level rename failure is non-fatal: the job still
terminates successfully, but the success event carries no filename (not the
pre-rename path); the tagged pre-rename file does stay on disk. -/
theorem c5_rename_fail_success (inp : JobInput) (e : Entry) (o : EntryOracle)
    (t : Track) (z : Str)
    (hf : inp.fetch = Except.ok (FetchInfo.single (e, o)))
    (hx : inp.fs0 e.path = true)
    (htc : o.tempConvOk = true)
    (hr : o.recogIfCalled = some (some t))
    (hren : o.renameOk = false)
    (hb : e.path.base = z ++ '.' :: (("m4a").toList))
    (hz : z ≠ []) :
    (runJob inp).outcome = Outcome.success none ∧
    (runJob inp).files e.path = true := by
  have htmp : ¬(e.path = tempPathOf e.path) :=
    fun hEq => tempPath_ne_self e.path z hb hz hEq.symm
  have hret : (processEntry inp.fs0 e o).ret = Except.ok none := by
    simp only [processEntry, hx, htc, hr, if_true, Option.some_bind, id_eq, hren,
      Bool.false_eq_true, if_false]
  have hfil : (processEntry inp.fs0 e o).files e.path = true := by
    simp only [processEntry, hx, htc, hr, if_true, Option.some_bind, id_eq, hren,
      Bool.false_eq_true, if_false]
    simp [fsErase, fsInsert, htmp, hx]
  refine ⟨?_, ?_⟩
  · simp only [runJob, hf, runEntries, hret]
  · simp only [runJob, hf, runEntries, hret]
    exact hfil

/-- C5 witness: the sample job with a failing rename succeeds carrying no
filename, and the pre-rename file is still on disk. -/
theorem c5_rename_fail_success_witness :
    (runJob (sampleJob { okOracle with renameOk := false } (fsOnly samplePath))).outcome
      = Outcome.success none ∧
    (runJob (sampleJob { okOracle with renameOk := false }
        (fsOnly samplePath))).files samplePath = true :=
  c5_rename_fail_success
    (sampleJob { okOracle with renameOk := false } (fsOnly samplePath))
    sampleEntry { okOracle with renameOk := false } sampleTrack (("vid1").toList)
    rfl (by decide) rfl rfl rfl (by decide) (by decide)

/-! ### C7: metadata precedence -/

/-- C7: when recognition succeeds with a track carrying a title and a
subtitle, the saved tag title and artist are exactly those recognized values,
overriding the fetch-derived ones; and the cleaned fetch-title fallback for
raw title `Artist - Song [Official Video]` with uploader `Artist` is `Song`. -/
theorem c7_metadata_precedence (fs : FS) (e : Entry) (o : EntryOracle) (t : Track)
    (tt ts : Str)
    (hx : fs e.path = true)
    (htc : o.tempConvOk = true)
    (hr : o.recogIfCalled = some (some t))
    (ht : t.title = some tt)
    (hs : t.subtitle = some ts) :
    (processEntry fs e o).tags.map Tags.nam = some tt ∧
    (processEntry fs e o).tags.map Tags.art = some ts ∧
    cleanTitle (("Artist").toList) (("Artist - Song [Official Video]").toList)
      = ("Song").toList := by
  refine ⟨?_, ?_, by decide⟩ <;>
    · simp only [processEntry, hx, htc, hr, if_true, Option.some_bind, id]
      split <;> simp [ht, hs]

/-- C7 witness: the sample entry with the sample recognized track resolves to
title `Song` and artist `Artist`. -/
theorem c7_metadata_precedence_witness :
    (processEntry (fsOnly samplePath) sampleEntry okOracle).tags.map Tags.nam
      = some (("Song").toList) ∧
    (processEntry (fsOnly samplePath) sampleEntry okOracle).tags.map Tags.art
      = some (("Artist").toList) :=
  ⟨(c7_metadata_precedence (fsOnly samplePath) sampleEntry okOracle sampleTrack
      (("Song").toList) (("Artist").toList) (by decide) rfl rfl rfl rfl).1,
    (c7_metadata_precedence (fsOnly samplePath) sampleEntry okOracle sampleTrack
      (("Song").toList) (("Artist").toList) (by decide) rfl rfl rfl rfl).2.1⟩

/-! ### C1: recognition returns no track -/

/-- C1: for an entry whose recognition produces no track payload (transcode
failure, a raised recognition call, or a response without a truthy `track`),
the job terminates Failed carrying the recognition-failure label
`Shazam recognition failed: No track info returned.` (wrapped by the
tagging-stage prefix of `job`), and the tag writes are never saved: no save
event is emitted and no tag record is produced for the entry. -/
theorem c1_no_track_fails (inp : JobInput) (e : Entry) (o : EntryOracle)
    (hf : inp.fetch = Except.ok (FetchInfo.single (e, o)))
    (hx : inp.fs0 e.path = true)
    (hnt : (if o.tempConvOk then o.recogIfCalled else none).bind id = none) :
    (runJob inp).outcome
      = Outcome.failure ((("Tagging Error: ").toList) ++ shazamFailMsg) ∧
    evSaves (runJob inp).trace = [] ∧
    (processEntry inp.fs0 e o).tags = none := by
  have hret : (processEntry inp.fs0 e o).ret = Except.error shazamFailMsg ∧
      (processEntry inp.fs0 e o).tags = none ∧
      evSaves (processEntry inp.fs0 e o).evs = [] := by
    by_cases htc : o.tempConvOk = true
    · simp only [htc, if_true, id_eq] at hnt
      refine ⟨?_, ?_, ?_⟩ <;>
        simp [processEntry, hx, htc, hnt, evSaves, List.filter, id_eq]
    · have htc' : o.tempConvOk = false := by
        cases hv : o.tempConvOk
        · rfl
        · exact absurd hv htc
      refine ⟨?_, ?_, ?_⟩ <;>
        simp [processEntry, hx, htc', evSaves, List.filter]
  obtain ⟨hret, htags, hevs⟩ := hret
  refine ⟨?_, ?_, htags⟩
  · simp only [runJob, hf, runEntries, hret]
  · simp only [runJob, hf, runEntries, hret, List.cons_append, List.nil_append,
      List.append_assoc, List.append_nil, evSaves_append, evSaves_cons_progress,
      evSaves_cons_fetch, evSaves_nil, evSaves_hooks, hevs]

/-- C1 witness: a concrete no-track job run fails with the recognition-failure
message and saves nothing. -/
theorem c1_no_track_fails_witness :
    (runJob (sampleJob { okOracle with recogIfCalled := some none }
        (fsOnly samplePath))).outcome
      = Outcome.failure ((("Tagging Error: ").toList) ++ shazamFailMsg) ∧
    evSaves (runJob (sampleJob { okOracle with recogIfCalled := some none }
        (fsOnly samplePath))).trace = [] :=
  ⟨(c1_no_track_fails (sampleJob { okOracle with recogIfCalled := some none }
      (fsOnly samplePath)) sampleEntry { okOracle with recogIfCalled := some none }
      rfl (by decide) (by decide)).1,
    (c1_no_track_fails (sampleJob { okOracle with recogIfCalled := some none }
      (fsOnly samplePath)) sampleEntry { okOracle with recogIfCalled := some none }
      rfl (by decide) (by decide)).2.1⟩

/-- C10 witness: the sample job over an empty disk. -/
theorem c10_missing_file_skip_witness :
    (runJob (sampleJob okOracle (fun _ => false))).outcome = Outcome.success none ∧
    evRecogs (runJob (sampleJob okOracle (fun _ => false))).trace = [] :=
  ⟨(c10_missing_file_skip (sampleJob okOracle (fun _ => false)) sampleEntry okOracle
      rfl rfl).1,
    (c10_missing_file_skip (sampleJob okOracle (fun _ => false)) sampleEntry okOracle
      rfl rfl).2.2.1⟩

/-! ### C6: the conversion contract -/

/-- A renamed-then-converted job over the sample entry with an explicit
output format. -/
def sampleJobFmt (fmt : Str) (o : EntryOracle) (fs : FS) : JobInput :=
  { sampleJob o fs with fmt := fmt }

/-- Where the sample entry's tagged file is renamed to. -/
def renamedSamplePath : FPath :=
  { dir := ("./ytd_download").toList, base := ("Artist - Song.m4a").toList }

theorem evConverts_runEntries_m4a (fs : FS) (ff : Option Str)
    (l : List (Entry × EntryOracle)) :
    evConverts (runEntries (("m4a").toList) fs ff l).evs = [] := by
  induction l generalizing fs ff with
  | nil => rfl
  | cons p rest ih =>
    obtain ⟨e, o⟩ := p
    simp only [runEntries]
    split
    · simp only [List.cons_append, evConverts_cons_progress, evConverts_append,
        evConverts_processEntry, evConverts_nil, List.nil_append, List.append_nil]
    · simp only [List.cons_append, evConverts_cons_progress, evConverts_append,
        evConverts_processEntry, evConverts_nil, List.nil_append, List.append_nil, ih]
    · rw [if_pos trivial]
      simp only [List.cons_append, evConverts_cons_progress, evConverts_append,
        evConverts_processEntry, evConverts_nil, List.nil_append, List.append_nil, ih]

/-- C6: the conversion step runs only when the requested format differs from
m4a (an m4a job's trace holds no conversion attempt); a successful conversion
deletes its source file; a failed conversion raises the conversion error and
leaves the source intact, and a concrete failed-conversion job terminates
Failed with the Convert-Error-labeled message while the tagged source file
survives (while the concrete successful conversion deletes it). -/
theorem c6_convert_contract :
    (∀ inp : JobInput, inp.fmt = ("m4a").toList →
      evConverts (runJob inp).trace = []) ∧
    (∀ (fmt : Str) (fs : FS) (rp : FPath) (o : EntryOracle), o.convOk = true →
      (convertStep fmt fs rp o).1 rp = false) ∧
    (∀ (fmt : Str) (fs : FS) (rp : FPath) (o : EntryOracle), o.convOk = false →
      ({ dir := rp.dir, base := withSuffix ('.' :: fmt) rp.base } : FPath) ≠ rp →
      (convertStep fmt fs rp o).2.2 = Except.error o.convErr ∧
      (convertStep fmt fs rp o).1 rp = fs rp) ∧
    (runJob (sampleJobFmt (("mp3").toList) { okOracle with convOk := false }
        (fsOnly samplePath))).outcome
      = Outcome.failure ((("Convert Error: ").toList) ++ ("boom").toList) ∧
    (runJob (sampleJobFmt (("mp3").toList) { okOracle with convOk := false }
        (fsOnly samplePath))).files renamedSamplePath = true ∧
    (runJob (sampleJobFmt (("mp3").toList) okOracle (fsOnly samplePath))).outcome
      = Outcome.success (some (("Artist - Song").toList)) ∧
    (runJob (sampleJobFmt (("mp3").toList) okOracle
        (fsOnly samplePath))).files renamedSamplePath = false := by
  refine ⟨?_, ?_, ?_, by decide, by decide, by decide, by decide⟩
  · intro inp hfmt
    simp only [runJob, hfmt]
    split
    · simp only [List.cons_append, List.nil_append, evConverts_cons_progress,
        evConverts_cons_fetch, evConverts_append, evConverts_hooks, evConverts_nil,
        List.append_nil]
    · split <;>
        simp only [List.cons_append, List.nil_append, evConverts_cons_progress,
          evConverts_cons_fetch, evConverts_append, evConverts_hooks, evConverts_nil,
          evConverts_runEntries_m4a, List.append_nil]
  · intro fmt fs rp o hok
    simp [convertStep, hok, fsErase]
  · intro fmt fs rp o hok hne
    constructor
    · simp [convertStep, hok]
    · simp only [convertStep, hok, Bool.false_eq_true, if_false]
      split
      · simp [fsInsert, Ne.symm hne]
      · rfl

/-- C6 witness: the conversion-step statements instantiated at concrete
values, and the m4a guard at the concrete sample job. -/
theorem c6_convert_contract_witness :
    (convertStep (("mp3").toList) (fsOnly samplePath) renamedSamplePath
        okOracle).1 renamedSamplePath = false ∧
    (convertStep (("mp3").toList) (fsOnly samplePath) renamedSamplePath
        { okOracle with convOk := false }).2.2
      = Except.error (("boom").toList) ∧
    evConverts (runJob (sampleJob okOracle (fsOnly samplePath))).trace = [] :=
  ⟨c6_convert_contract.2.1 (("mp3").toList) (fsOnly samplePath) renamedSamplePath
      okOracle rfl,
    (c6_convert_contract.2.2.1 (("mp3").toList) (fsOnly samplePath) renamedSamplePath
      { okOracle with convOk := false } rfl (by decide)).1,
    c6_convert_contract.1 (sampleJob okOracle (fsOnly samplePath)) rfl⟩

/-! ### C2: progress monotonicity and the terminal 100 -/

/-- C2 counterexample: the reported progress sequence of a job is not
non-decreasing: the sample job reports 5, 10, then the first download
callback reports 0. -/
theorem c2_progress_not_monotone :
    nondecr (progressValues (runJob (sampleJob okOracle (fun _ => false))).trace)
      = false := by decide

theorem progressValues_last (l : List Ev) :
    (progressValues (l ++ [Ev.progress 100])).getLast? = some 100 := by
  rw [progressValues, List.filterMap_append]
  rw [List.getLast?_append_of_ne_nil _ (by simp [List.filterMap])]
  rfl

theorem runEntries_halt_evs (fmt : Str) (fs : FS) (ff : Option Str)
    (l : List (Entry × EntryOracle)) :
    (runEntries fmt fs ff l).halt = none ∨
    ∃ pre, (runEntries fmt fs ff l).evs = pre ++ [Ev.progress 100] := by
  induction l generalizing fs ff with
  | nil => exact Or.inl rfl
  | cons p rest ih =>
    obtain ⟨e, o⟩ := p
    simp only [runEntries]
    split
    · exact Or.inr ⟨Ev.progress 90 :: (processEntry fs e o).evs, by simp⟩
    · rcases ih (processEntry fs e o).files ff with h | ⟨pre, hpre⟩
      · exact Or.inl h
      · exact Or.inr ⟨Ev.progress 90 :: ((processEntry fs e o).evs ++ pre),
          by simp [hpre, List.append_assoc]⟩
    · rename_i rp heq
      split
      · rcases ih (processEntry fs e o).files (some (stemOf rp.base)) with h | ⟨pre, hpre⟩
        · exact Or.inl h
        · exact Or.inr ⟨Ev.progress 90 :: ((processEntry fs e o).evs ++ pre),
            by simp [hpre, List.append_assoc]⟩
      · split
        · rename_i newStem hcs
          rcases ih (convertStep fmt (processEntry fs e o).files rp o).1
              (some newStem) with h | ⟨pre, hpre⟩
          · exact Or.inl h
          · exact Or.inr ⟨Ev.progress 90 :: ((processEntry fs e o).evs ++
              ((convertStep fmt (processEntry fs e o).files rp o).2.1 ++ pre)),
              by simp [hpre, List.append_assoc]⟩
        · exact Or.inr ⟨Ev.progress 90 :: ((processEntry fs e o).evs ++
            (convertStep fmt (processEntry fs e o).files rp o).2.1),
            by simp [List.append_assoc]⟩

/-- C2 (amended): every job run ends its reported progress at exactly 100 on
the terminal event, on the success path and on each failure path. -/
theorem c2_progress_terminal_100 (inp : JobInput) :
    (progressValues (runJob inp).trace).getLast? = some 100 := by
  simp only [runJob]
  split
  · exact progressValues_last _
  · split
    · rename_i oc hoc
      rcases runEntries_halt_evs inp.fmt inp.fs0 none _ with h | ⟨pre, hpre⟩
      · rw [h] at hoc
        exact Option.noConfusion hoc
      · rw [hpre, ← List.append_assoc]
        exact progressValues_last _
    · rw [show ∀ (a b : List Ev),
        a ++ b ++ [Ev.progress 100, Ev.progress 100]
          = (a ++ b ++ [Ev.progress 100]) ++ [Ev.progress 100] from
        fun a b => by simp [List.append_assoc]]
      exact progressValues_last _

end YTD
